import Mathlib

/-!
A verification development for the `fiocruz-genomics-portal` repository.

The repository's ingestion pipeline (scripts `parse_nirvana.py` and
`export_to_es.py`) converts Nirvana per-variant annotation dumps into
flattened Elasticsearch documents; its React frontend filters, summarises
and exports the flattened records.  The pipeline components are modelled
here from the specification (the scripts themselves are documented by the
repository's READMEs but their code is not part of the source snapshot);
the frontend helpers (`categorizeFrequency`, the `useSearch` filter and
`handleDownload` in `App.jsx`) are translated directly from the JSX source.
-/

namespace FiocruzPortal

/-! ## Pipeline data model (modelled from the spec) -/

/-- Modelled from the spec: the fixed, explicit severity ordering of
consequence terms (most severe first).  The spec leaves the exact table a
documented policy choice (design note, §9); the table fixed here follows
the usual loss-of-function > missense > ... shape and places
`intron_variant` above `synonymous_variant`, as the spec's own §8 scenario
(`all_consequences = [missense_variant, intron_variant, synonymous_variant]`,
sorted most severe first) requires. -/
def severityOrder : List String :=
  ["transcript_ablation", "splice_acceptor_variant", "splice_donor_variant",
   "stop_gained", "frameshift_variant", "stop_lost", "start_lost",
   "missense_variant", "inframe_insertion", "inframe_deletion",
   "splice_region_variant", "intron_variant", "synonymous_variant",
   "5_prime_UTR_variant", "3_prime_UTR_variant",
   "upstream_gene_variant", "downstream_gene_variant", "intergenic_variant"]

/-- Rank of a consequence term in the severity table: 0 is most severe;
terms absent from the table rank after every listed term. -/
def severityRank (term : String) : Nat :=
  severityOrder.indexOf term

/-- Rank of the most severe consequence term in a list (smaller = more
severe); an empty list ranks least severe. -/
def minRank (terms : List String) : Nat :=
  (terms.map severityRank).foldr min severityOrder.length

/-- Modelled from the spec: one per-transcript annotation block of a
`RawAnnotationUnit` (gene symbol, consequence terms, transcript id and the
annotation engine's canonical flag). -/
structure TranscriptBlock where
  gene : String
  consequences : List String
  transcriptId : String
  isCanonical : Bool
  deriving DecidableEq, Repr

instance : Inhabited TranscriptBlock := ⟨⟨"", [], "", false⟩⟩

/-- Rank of a transcript block: the rank of its most severe consequence. -/
def blockRank (t : TranscriptBlock) : Nat :=
  minRank t.consequences

/-- Modelled from the spec: one position/variant entry of the annotation
engine's output (§3 data model). -/
structure RawAnnotationUnit where
  chrom : String
  position : Nat
  ref : String
  alt : String
  rsid : Option String
  transcripts : List TranscriptBlock
  subAfs : List (String × ℚ)
  globalAf : Option ℚ
  conservation : List (String × ℚ)
  clinvar : Option String
  quality : Option ℚ
  deriving DecidableEq, Repr

/-- Deduplicate a list of strings keeping the first occurrence of each
element (the semantics of a JS `Set` built from an array). -/
def dedupFirstAux (seen : List String) : List String → List String
  | [] => []
  | x :: xs =>
    if x ∈ seen then dedupFirstAux seen xs
    else x :: dedupFirstAux (x :: seen) xs

/-- Deduplicate keeping first occurrences. -/
def dedupFirst (l : List String) : List String :=
  dedupFirstAux [] l

/-- The severity comparison used to sort consequence terms (most severe,
i.e. lowest rank, first). -/
def severityLE (a b : String) : Prop :=
  severityRank a ≤ severityRank b

instance : DecidableRel severityLE := fun _ _ => Nat.decLe _ _

/-- Sort consequence terms most severe first (stable insertion sort by
severity rank). -/
def sortBySeverity (l : List String) : List String :=
  l.insertionSort severityLE

/-- Modelled from the spec: pick the best transcript of a non-empty run,
scanning left to right and replacing the incumbent only on strictly higher
severity, so the first transcript wins ties. -/
def pickMin (t : TranscriptBlock) (rest : List TranscriptBlock) : TranscriptBlock :=
  rest.foldl (fun best c => if blockRank c < blockRank best then c else best) t

/-- Modelled from the spec: canonical gene/transcript selection (§4.2).
Prefer the first block flagged canonical; otherwise select the block whose
most severe consequence ranks highest, ties broken by input order. -/
def selectTranscript (ts : List TranscriptBlock) : Option TranscriptBlock :=
  match ts.find? (·.isCanonical) with
  | some t => some t
  | none =>
    match ts with
    | [] => none
    | t :: rest => some (pickMin t rest)

/-- Modelled from the spec: aggregation of `all_consequences` (§4.2) — the
deduplicated union of consequence terms over all transcript blocks, sorted
most severe first. -/
def allConsequences (ts : List TranscriptBlock) : List String :=
  sortBySeverity (dedupFirst (ts.flatMap (·.consequences)))

/-- Modelled from the spec: `variant_type` derived purely from allele
lengths (§4.2). -/
def variantType (ref alt : String) : String :=
  if ref.length = 1 ∧ alt.length = 1 then "SNV"
  else if ref.length < alt.length then "insertion"
  else if alt.length < ref.length then "deletion"
  else "complex"

/-- Modelled from the spec: the fixed sub-population key → output field
name mapping table of §4.2. -/
def freqFieldKeys : List String :=
  ["afr", "amr", "eas", "nfe", "sas"]

/-- Look up a named value in a flattened name/value block; a name missing
in the input yields `none`, never a default of zero. -/
def lookupNamed (block : List (String × ℚ)) (key : String) : Option ℚ :=
  (block.find? (·.1 = key)).map (·.2)

/-- Modelled from the spec: the flattened, search-ready output record
(§3 data model). -/
structure FlattenedVariantRecord where
  vid : String
  rsid : Option String
  gene : Option String
  genes : List String
  position : Nat
  ref : String
  alt : String
  variant_type : String
  all_consequences : List String
  gnomad_af : Option ℚ
  gnomad_afr_af : Option ℚ
  gnomad_amr_af : Option ℚ
  gnomad_eas_af : Option ℚ
  gnomad_nfe_af : Option ℚ
  gnomad_sas_af : Option ℚ
  phylop_score : Option ℚ
  gerp_score : Option ℚ
  dann_score : Option ℚ
  clinvar_significance : Option String
  quality : Option ℚ
  deriving DecidableEq, Repr

/-- Modelled from the spec: the VariantFlattener (§4.2), a pure function
from one raw annotation unit to one flattened record. -/
def flattenRecord (u : RawAnnotationUnit) : FlattenedVariantRecord :=
  { vid := u.chrom ++ "-" ++ toString u.position ++ "-" ++ u.ref ++ "-" ++ u.alt
    rsid := u.rsid
    gene := (selectTranscript u.transcripts).map (·.gene)
    genes := dedupFirst (u.transcripts.map (·.gene))
    position := u.position
    ref := u.ref
    alt := u.alt
    variant_type := variantType u.ref u.alt
    all_consequences := allConsequences u.transcripts
    gnomad_af := u.globalAf
    gnomad_afr_af := lookupNamed u.subAfs "afr"
    gnomad_amr_af := lookupNamed u.subAfs "amr"
    gnomad_eas_af := lookupNamed u.subAfs "eas"
    gnomad_nfe_af := lookupNamed u.subAfs "nfe"
    gnomad_sas_af := lookupNamed u.subAfs "sas"
    phylop_score := lookupNamed u.conservation "phylop"
    gerp_score := lookupNamed u.conservation "gerp"
    dann_score := lookupNamed u.conservation "dann"
    clinvar_significance := u.clinvar
    quality := u.quality }

/-! ## Stage boundary: schema validation and skip counting (modelled from the spec) -/

/-- Modelled from the spec: a raw input record before schema validation —
the required fields (position, ref, alt) may be absent. -/
structure RawUnitJson where
  chrom : String
  position : Option Nat
  ref : Option String
  alt : Option String
  rsid : Option String
  transcripts : List TranscriptBlock
  subAfs : List (String × ℚ)
  globalAf : Option ℚ
  conservation : List (String × ℚ)
  clinvar : Option String
  quality : Option ℚ
  deriving DecidableEq, Repr

/-- Modelled from the spec: schema validation (§4.2) — a missing required
field (position, ref, alt) raises a recoverable `SchemaError`. -/
def validateUnit (u : RawUnitJson) : Except String RawAnnotationUnit :=
  match u.position, u.ref, u.alt with
  | some p, some r, some a =>
    Except.ok
      { chrom := u.chrom, position := p, ref := r, alt := a, rsid := u.rsid
        transcripts := u.transcripts, subAfs := u.subAfs, globalAf := u.globalAf
        conservation := u.conservation, clinvar := u.clinvar, quality := u.quality }
  | none, _, _ => Except.error "SchemaError: missing position"
  | _, none, _ => Except.error "SchemaError: missing ref"
  | _, _, none => Except.error "SchemaError: missing alt"

/-- Modelled from the spec: flatten one parsed unit, failing with a
recoverable `SchemaError` when a required field is absent. -/
def flattenChecked (u : RawUnitJson) : Except String FlattenedVariantRecord :=
  (validateUnit u).map flattenRecord

/-- Modelled from the spec: the stage boundary (§7 propagation policy) —
each parsed unit either yields one flattened record or is skipped with the
skip counter incremented; per-record failures are absorbed, never thrown. -/
def pipelineStep (acc : List FlattenedVariantRecord × Nat) (u : RawUnitJson) :
    List FlattenedVariantRecord × Nat :=
  match flattenChecked u with
  | Except.ok r => (acc.1 ++ [r], acc.2)
  | Except.error _ => (acc.1, acc.2 + 1)

/-- Modelled from the spec: run the parse/flatten stages over a whole
input stream, accumulating the flattened records and the skip counter. -/
def runPipeline (inputs : List RawUnitJson) : List FlattenedVariantRecord × Nat :=
  inputs.foldl pipelineStep ([], 0)

/-! ## BatchTableWriter (modelled from the spec) -/

/-- Fuel-driven chunking loop: each step takes one batch of `bs` records
off the front of the remaining list. -/
def chunkGo (bs : Nat) : Nat → List α → List (List α)
  | 0, _ => []
  | _, [] => []
  | fuel + 1, x :: xs => (x :: xs.take (bs - 1)) :: chunkGo bs fuel (xs.drop (bs - 1))

/-- Modelled from the spec: the BatchTableWriter's grouping (§4.3) — the
flattened-record sequence is cut into ordered batches of `bs` records; only
the final batch may be smaller. -/
def chunkList (bs : Nat) (l : List α) : List (List α) :=
  chunkGo bs l.length l

/-! ## BulkIndexExporter: idempotent upsert (modelled from the spec) -/

/-- An index state: an association of document identities (`vid`) to
indexed documents. -/
abbrev IndexState : Type := List (String × FlattenedVariantRecord)

/-- The keys (document identities) of an index state. -/
def stateKeys (s : IndexState) : List String :=
  s.map (·.1)

/-- The number of documents held by an index state. -/
def docCount (s : IndexState) : Nat :=
  s.length

/-- Modelled from the spec: a single upsert (create-or-replace keyed by
document identity, §4.4) — replace the document in place when the key is
present, append it otherwise. -/
def upsert (s : IndexState) (k : String) (v : FlattenedVariantRecord) : IndexState :=
  if k ∈ stateKeys s then
    s.map (fun p => if p.1 = k then (k, v) else p)
  else
    s ++ [(k, v)]

/-- Modelled from the spec: bulk export of one batch (§4.4) — every record
of the batch is upserted into the index keyed by its `vid`. -/
def exportBatch (s : IndexState) (b : List FlattenedVariantRecord) : IndexState :=
  b.foldl (fun s r => upsert s r.vid r) s

/-- Modelled from the spec: export of a whole persisted table, batch by
batch. -/
def exportTable (s : IndexState) (bs : List (List FlattenedVariantRecord)) : IndexState :=
  bs.foldl exportBatch s

/-! ## BulkIndexExporter: retry with exponential backoff (modelled from the spec) -/

/-- Outcome bookkeeping for one batch send: whether it was recorded as
successfully exported, how many attempts were made, and how many retries
were logged. -/
structure SendResult where
  success : Bool
  attempts : Nat
  retries : Nat
  deriving DecidableEq, Repr

/-- Index of the first successful attempt, scanning attempt indices
`start, start+1, ...` with the given fuel; `outcomes i = true` means the
`i`-th bulk request attempt succeeds, `false` means a transient failure. -/
def firstSuccessFrom (outcomes : Nat → Bool) : Nat → Nat → Option Nat
  | _, 0 => none
  | start, fuel + 1 =>
    if outcomes start then some start
    else firstSuccessFrom outcomes (start + 1) fuel

/-- Modelled from the spec: the retry loop (§4.4) — the bulk request is
retried on transient failure up to `maxAttempts` total attempts; a success
at attempt `k` (0-based) is recorded with `k` logged retries; exhausting
all attempts records the batch as failed. -/
def sendWithRetry (maxAttempts : Nat) (outcomes : Nat → Bool) : SendResult :=
  match firstSuccessFrom outcomes 0 maxAttempts with
  | some k => { success := true, attempts := k + 1, retries := k }
  | none => { success := false, attempts := maxAttempts, retries := maxAttempts - 1 }

/-- Modelled from the spec: exponential backoff delay before retry attempt
`n` — the base delay doubles per attempt and is capped. -/
def backoffDelay (base cap n : Nat) : Nat :=
  min cap (base * 2 ^ n)

/-- Modelled from the spec: an export run over many batches (§4.4) — every
batch is sent with retry, a failed batch is recorded as failed and the run
continues with the remaining batches rather than aborting. -/
def runExport (maxAttempts : Nat) (jobs : List (String × (Nat → Bool))) :
    List (String × SendResult) :=
  jobs.map (fun j => (j.1, sendWithRetry maxAttempts j.2))

/-! ## Frontend: useSearch helpers (from `frontend/src/hooks/useSearch` in
`VariantTable.jsx`'s source bundle) -/

/-- Lower-case a string character by character (JS `toLowerCase` on the
ASCII identifiers involved here). -/
def lowerStr (s : String) : String :=
  ⟨s.data.map Char.toLower⟩

/-- Upper-case a string character by character (JS `toUpperCase`). -/
def upperStr (s : String) : String :=
  ⟨s.data.map Char.toUpper⟩

/-- Whether `pat` occurs at the head of `l`. -/
def leadsList : List Char → List Char → Bool
  | [], _ => true
  | _ :: _, [] => false
  | a :: asx, b :: bs => a = b && leadsList asx bs

/-- Whether `pat` occurs as a contiguous run somewhere in `l`
(JS `String.prototype.includes`). -/
def occursIn (pat : List Char) : List Char → Bool
  | [] => leadsList pat []
  | c :: cs => leadsList pat (c :: cs) || occursIn pat cs

/-- JS `s.includes(pat)`. -/
def strIncludes (s pat : String) : Bool :=
  occursIn pat.data s.data

/-- `categorizeFrequency` from `useSearch`: bucket a gnomAD allele
frequency; `null`/`undefined` (here `none`) is `Unknown`. -/
def categorizeFrequency (af : Option ℚ) : String :=
  match af with
  | none => "Unknown"
  | some af =>
    if af < 1/10000 then "Ultra-rare (<0.01%)"
    else if af < 1/1000 then "Rare (0.01-0.1%)"
    else if af < 1/100 then "Low freq (0.1-1%)"
    else if af < 1/20 then "Common (1-5%)"
    else "Very common (>5%)"

/-- A variant document as consumed by the `useSearch` client-side filter:
every field may be absent (`none` models a missing/`undefined` JSON
field). -/
structure Variant where
  vid : String
  gnomad_af : Option ℚ
  all_consequences : Option (List String)
  variant_type : Option String
  clinvar_significance : Option String
  rsid : Option String
  gene : Option String
  genes : Option (List String)
  deriving DecidableEq, Repr

/-- The `filters` state of `useSearch` (initially
`minAF: 0, maxAF: 1` and empty strings). -/
structure Filters where
  minAF : ℚ
  maxAF : ℚ
  consequence : String
  variantType : String
  clinvar : String
  rsid : String
  gene : String
  deriving DecidableEq, Repr

/-- The frequency-range check of the `useSearch` filter: a variant with
`undefined` `gnomad_af` is treated as frequency `0`, and it passes when
that frequency lies in `[minAF, maxAF]`. -/
def afPass (f : Filters) (v : Variant) : Bool :=
  let af := v.gnomad_af.getD 0
  !(af < f.minAF || af > f.maxAF)

/-- The client-side filter predicate of `useSearch` (the `variants.filter`
callback), translated clause by clause from the JSX source. -/
def passesFilter (f : Filters) (v : Variant) : Bool :=
  let af := v.gnomad_af.getD 0
  let cons := lowerStr (String.intercalate " " (v.all_consequences.getD []))
  let vType := lowerStr (v.variant_type.getD "")
  let clinvarSig := lowerStr (v.clinvar_significance.getD "")
  let rsidVal := lowerStr (v.rsid.getD "")
  if af < f.minAF || af > f.maxAF then false
  else if f.consequence ≠ "" && !(strIncludes cons (lowerStr f.consequence)) then false
  else if f.variantType ≠ "" && !(strIncludes vType (lowerStr f.variantType)) then false
  else if f.clinvar ≠ "" && !(strIncludes clinvarSig (lowerStr f.clinvar)) then false
  else if f.rsid ≠ "" && !(strIncludes rsidVal (lowerStr f.rsid)) then false
  else if f.gene ≠ "" &&
      !(strIncludes (upperStr (v.gene.getD "")) (upperStr f.gene)) &&
      !((v.genes.getD []).any (fun g => strIncludes (upperStr g) (upperStr f.gene))) then
    false
  else true

/-! ## Frontend: CSV export (`handleDownload` in `App.jsx`) -/

/-- A JavaScript value as it can appear in a variant record shipped to the
CSV exporter.  `vundefined` models both an absent property and a property
explicitly set to `undefined`; a number is carried by its decimal
rendering. -/
inductive JSVal where
  | vnull
  | vundefined
  | vbool (b : Bool)
  | vnum (rendered : String)
  | vstr (s : String)
  | varr (elems : List JSVal)
  | vobj (fields : List (String × JSVal))
  deriving Repr

/-- Whether a value is the JS `undefined`. -/
def JSVal.isUndef : JSVal → Bool
  | .vundefined => true
  | _ => false

/-- JSON string escaping for the characters that matter here (quote,
backslash and the common control characters). -/
def jsonEscapeChar (c : Char) : List Char :=
  if c = '"' then ['\\', '"']
  else if c = '\\' then ['\\', '\\']
  else if c = '\n' then ['\\', 'n']
  else if c = '\t' then ['\\', 't']
  else if c = '\r' then ['\\', 'r']
  else [c]

/-- JSON string escaping lifted to strings. -/
def jsonEscape (s : String) : String :=
  ⟨s.data.flatMap jsonEscapeChar⟩

mutual

/-- `JSON.stringify` for the values above.  An `undefined` array element
renders as `null`; an `undefined` object property is omitted. -/
def jsonStringify : JSVal → String
  | .vnull => "null"
  | .vundefined => "null"
  | .vbool b => cond b "true" "false"
  | .vnum s => s
  | .vstr s => "\"" ++ jsonEscape s ++ "\""
  | .varr xs => "[" ++ String.intercalate "," (jsonStringifyList xs) ++ "]"
  | .vobj fs => "\x7b" ++ String.intercalate "," (jsonStringifyFields fs) ++ "\x7d"

/-- Renderings of the elements of a JSON array. -/
def jsonStringifyList : List JSVal → List String
  | [] => []
  | x :: xs => jsonStringify x :: jsonStringifyList xs

/-- Renderings of the (defined) properties of a JSON object. -/
def jsonStringifyFields : List (String × JSVal) → List String
  | [] => []
  | (k, v) :: fs =>
    if v.isUndef then jsonStringifyFields fs
    else ("\"" ++ jsonEscape k ++ "\":" ++ jsonStringify v) :: jsonStringifyFields fs

end

/-- A JS record row: an ordered association of property names to values
(`Object.keys` order). -/
abbrev JSRow : Type := List (String × JSVal)

/-- `Object.keys`. -/
def jsKeys (row : JSRow) : List String :=
  row.map (·.1)

/-- Property access `row[k]`: `undefined` when the key is absent. -/
def jsLookup (row : JSRow) (k : String) : JSVal :=
  ((row.find? (·.1 = k)).map (·.2)).getD .vundefined

/-- CSV escaping from `handleDownload`: `.replace(/"/g, '""')` — every
embedded double quote is doubled. -/
def csvEscape : List Char → List Char
  | [] => []
  | c :: cs => if c = '"' then '"' :: '"' :: csvEscape cs else c :: csvEscape cs

/-- Wrap an escaped rendering in double quotes, as the template literal
`"${...}"` does. -/
def csvQuote (l : List Char) : List Char :=
  '"' :: (csvEscape l ++ ['"'])

/-- One CSV field of `handleDownload`: `null`/`undefined` yield an empty
unquoted field; a value of object type is `JSON.stringify`-ed and every
other value is `String(...)`-converted, then escaped and double-quoted. -/
def csvField (row : JSRow) (k : String) : List Char :=
  match jsLookup row k with
  | .vnull => []
  | .vundefined => []
  | .vbool b => csvQuote (cond b "true" "false").data
  | .vnum s => csvQuote s.data
  | .vstr s => csvQuote s.data
  | .varr xs => csvQuote (jsonStringify (.varr xs)).data
  | .vobj fs => csvQuote (jsonStringify (.vobj fs)).data

/-- `Array.prototype.join` on character lists. -/
def joinSep (sep : Char) : List (List Char) → List Char
  | [] => []
  | [f] => f
  | f :: fs => f ++ sep :: joinSep sep fs

/-- The header of `handleDownload`:
`Array.from(new Set(filteredVariants.flatMap(Object.keys)))` — the union
of all row keys, first occurrences kept. -/
def csvHeaderKeys (rows : List JSRow) : List String :=
  dedupFirst (rows.flatMap jsKeys)

/-- One data row of `handleDownload`: the per-key fields joined by
commas. -/
def csvRowChars (keys : List String) (row : JSRow) : List Char :=
  joinSep ',' (keys.map (csvField row))

/-- The full `csvContent` string of `handleDownload`: header and data rows
joined by newlines. -/
def csvContent (rows : List JSRow) : String :=
  ⟨joinSep '\n'
    (joinSep ',' ((csvHeaderKeys rows).map String.data)
      :: rows.map (csvRowChars (csvHeaderKeys rows)))⟩

/-- Count the comma-separated fields of one CSV line, honouring CSV
quoting: a comma inside a double-quoted field does not separate.  Returns
the number of separating commas seen from the given quoting state. -/
def countFieldsAux : List Char → Bool → Nat
  | [], _ => 0
  | c :: cs, inQ =>
    if c = '"' then countFieldsAux cs (!inQ)
    else if c = ',' then
      (if inQ then countFieldsAux cs inQ else countFieldsAux cs inQ + 1)
    else countFieldsAux cs inQ

/-- Number of comma-separated fields of one CSV line (quote-aware). -/
def countFields (l : List Char) : Nat :=
  countFieldsAux l false + 1

/-- A sample valid annotation unit, used to instantiate theorems with
hypotheses at a concrete input. -/
def sampleUnit : RawAnnotationUnit :=
  ⟨"1", 100, "A", "T", none, [], [], none, [], none, none⟩

/-! ## Theorems -/

/-- **C2.** `variant_type` is determined solely by allele lengths: a
single-base ref and alt give `SNV`; otherwise a longer alt gives
`insertion`, a shorter alt gives `deletion`, and anything else gives
`complex`. -/
theorem claim_C2_variant_type (u : RawAnnotationUnit) :
    (flattenRecord u).variant_type = variantType u.ref u.alt ∧
    ((u.ref.length = 1 ∧ u.alt.length = 1) → variantType u.ref u.alt = "SNV") ∧
    (¬(u.ref.length = 1 ∧ u.alt.length = 1) → u.ref.length < u.alt.length →
      variantType u.ref u.alt = "insertion") ∧
    (¬(u.ref.length = 1 ∧ u.alt.length = 1) → u.alt.length < u.ref.length →
      variantType u.ref u.alt = "deletion") ∧
    (¬(u.ref.length = 1 ∧ u.alt.length = 1) → ¬(u.ref.length < u.alt.length) →
      ¬(u.alt.length < u.ref.length) → variantType u.ref u.alt = "complex") := by
  refine ⟨rfl, ?_, ?_, ?_, ?_⟩
  · intro h1
    simp [variantType, h1]
  · intro h1 h2
    rw [variantType, if_neg h1, if_pos h2]
  · intro h1 h2
    rw [variantType, if_neg h1, if_neg (by omega), if_pos h2]
  · intro h1 h2 h3
    rw [variantType, if_neg h1, if_neg h2, if_neg h3]

/-- Witness for C2 at a concrete unit: a single-base substitution is
typed `SNV`. -/
theorem claim_C2_witness : variantType sampleUnit.ref sampleUnit.alt = "SNV" :=
  (claim_C2_variant_type sampleUnit).2.1 (by decide)

/-- **C3.** The flattener is a pure, deterministic function of its input:
equal raw units flatten to equal (hence byte-identical) records, and the
shallow embedding has no other state to affect. -/
theorem claim_C3_determinism (u₁ u₂ : RawAnnotationUnit) (h : u₁ = u₂) :
    flattenRecord u₁ = flattenRecord u₂ :=
  congrArg flattenRecord h

/-- Witness for C3: two flattenings of the sample unit agree. -/
theorem claim_C3_witness : flattenRecord sampleUnit = flattenRecord sampleUnit :=
  claim_C3_determinism sampleUnit sampleUnit rfl

/-- **C9.** `categorizeFrequency` is total and partitions its domain:
`null`/`undefined` map to `Unknown`, and a numeric frequency falls in
exactly one of the five buckets at the stated thresholds. -/
theorem claim_C9_categorize :
    categorizeFrequency none = "Unknown" ∧
    ∀ af : ℚ,
      (af < 1/10000 → categorizeFrequency (some af) = "Ultra-rare (<0.01%)") ∧
      (1/10000 ≤ af → af < 1/1000 → categorizeFrequency (some af) = "Rare (0.01-0.1%)") ∧
      (1/1000 ≤ af → af < 1/100 → categorizeFrequency (some af) = "Low freq (0.1-1%)") ∧
      (1/100 ≤ af → af < 1/20 → categorizeFrequency (some af) = "Common (1-5%)") ∧
      (1/20 ≤ af → categorizeFrequency (some af) = "Very common (>5%)") ∧
      categorizeFrequency (some af) ∈
        ["Ultra-rare (<0.01%)", "Rare (0.01-0.1%)", "Low freq (0.1-1%)",
         "Common (1-5%)", "Very common (>5%)"] := by
  refine ⟨rfl, fun af => ⟨?_, ?_, ?_, ?_, ?_, ?_⟩⟩
  · intro h1
    rw [categorizeFrequency, if_pos h1]
  · intro h1 h2
    rw [categorizeFrequency, if_neg (by linarith), if_pos h2]
  · intro h1 h2
    rw [categorizeFrequency, if_neg (by linarith), if_neg (by linarith), if_pos h2]
  · intro h1 h2
    rw [categorizeFrequency, if_neg (by linarith), if_neg (by linarith),
      if_neg (by linarith), if_pos h2]
  · intro h1
    rw [categorizeFrequency, if_neg (by linarith), if_neg (by linarith),
      if_neg (by linarith), if_neg (by linarith)]
  · rw [categorizeFrequency]
    split_ifs <;> simp

/-- Witness for C9: a frequency of 0.005 is categorized as low
frequency. -/
theorem claim_C9_witness : categorizeFrequency (some (5/1000)) = "Low freq (0.1-1%)" :=
  (claim_C9_categorize.2 (5/1000)).2.2.1 (by norm_num) (by norm_num)

lemma flattenChecked_pos_none (u : RawUnitJson) (h : u.position = none) :
    flattenChecked u = Except.error "SchemaError: missing position" := by
  rw [flattenChecked, validateUnit, h]
  cases u.ref <;> cases u.alt <;> rfl

lemma flattenChecked_ref_none (u : RawUnitJson) (p : Nat) (hp : u.position = some p)
    (h : u.ref = none) :
    flattenChecked u = Except.error "SchemaError: missing ref" := by
  rw [flattenChecked, validateUnit, hp, h]
  cases u.alt <;> rfl

lemma flattenChecked_alt_none (u : RawUnitJson) (p : Nat) (r : String)
    (hp : u.position = some p) (hr : u.ref = some r) (h : u.alt = none) :
    flattenChecked u = Except.error "SchemaError: missing alt" := by
  rw [flattenChecked, validateUnit, hp, hr, h]
  rfl

lemma runPipeline_counts (inputs : List RawUnitJson) :
    ∀ acc : List FlattenedVariantRecord × Nat,
      (inputs.foldl pipelineStep acc).1.length + (inputs.foldl pipelineStep acc).2 =
        acc.1.length + acc.2 + inputs.length := by
  induction inputs with
  | nil => intro acc; simp
  | cons u us ih =>
    intro acc
    rw [List.foldl_cons, ih]
    cases h : flattenChecked u <;> simp [pipelineStep, h] <;> omega

/-- **C4.** Each parsed record either yields exactly one flattened record
or bumps the skip counter, so `parsed = flattened + skipped`; a unit
missing a required field fails with a recoverable `SchemaError` that is
absorbed at the stage boundary, and in the concrete 3-record scenario with
record 2 lacking its position the run yields 2 records and skip count 1. -/
theorem claim_C4_skip_and_count :
    (∀ inputs : List RawUnitJson,
      inputs.length = (runPipeline inputs).1.length + (runPipeline inputs).2) ∧
    (∀ u : RawUnitJson, u.position = none ∨ u.ref = none ∨ u.alt = none →
      ∃ msg, flattenChecked u = Except.error msg) ∧
    (∀ u : RawUnitJson,
      (∃ r, flattenChecked u = Except.ok r) ∨ (∃ m, flattenChecked u = Except.error m)) ∧
    (runPipeline
        [⟨"1", some 11, some "A", some "T", none, [], [], none, [], none, none⟩,
         ⟨"1", none, some "C", some "G", none, [], [], none, [], none, none⟩,
         ⟨"1", some 13, some "G", some "GA", none, [], [], none, [], none, none⟩]).1.length = 2 ∧
    (runPipeline
        [⟨"1", some 11, some "A", some "T", none, [], [], none, [], none, none⟩,
         ⟨"1", none, some "C", some "G", none, [], [], none, [], none, none⟩,
         ⟨"1", some 13, some "G", some "GA", none, [], [], none, [], none, none⟩]).2 = 1 := by
  refine ⟨?_, ?_, ?_, by decide, by decide⟩
  · intro inputs
    have h := runPipeline_counts inputs ([], 0)
    simpa [runPipeline] using h.symm
  · intro u h
    rcases h with h | h | h
    · exact ⟨_, flattenChecked_pos_none u h⟩
    · cases hp : u.position with
      | none => exact ⟨_, flattenChecked_pos_none u hp⟩
      | some p => exact ⟨_, flattenChecked_ref_none u p hp h⟩
    · cases hp : u.position with
      | none => exact ⟨_, flattenChecked_pos_none u hp⟩
      | some p =>
        cases hr : u.ref with
        | none => exact ⟨_, flattenChecked_ref_none u p hp hr⟩
        | some r => exact ⟨_, flattenChecked_alt_none u p r hp hr h⟩
  · intro u
    cases h : flattenChecked u
    · exact Or.inr ⟨_, rfl⟩
    · exact Or.inl ⟨_, rfl⟩

/-- Witness for C4: a record lacking its position raises a recoverable
`SchemaError`. -/
theorem claim_C4_witness :
    ∃ msg, flattenChecked ⟨"1", none, some "C", some "G", none, [], [], none, [], none, none⟩ =
      Except.error msg :=
  claim_C4_skip_and_count.2.1 _ (Or.inl rfl)

lemma firstSuccessFrom_none (o : Nat → Bool) :
    ∀ fuel start, (∀ j, j < fuel → o (start + j) = false) →
      firstSuccessFrom o start fuel = none := by
  intro fuel
  induction fuel with
  | zero => intro start _; rfl
  | succ n ih =>
    intro start h
    have h0 : o start = false := by simpa using h 0 (Nat.succ_pos n)
    rw [firstSuccessFrom, if_neg (by simp [h0])]
    refine ih (start + 1) fun j hj => ?_
    have := h (j + 1) (by omega)
    rwa [show start + 1 + j = start + (j + 1) by omega]

lemma firstSuccessFrom_some (o : Nat → Bool) :
    ∀ fuel start k, k < fuel → o (start + k) = true → (∀ j, j < k → o (start + j) = false) →
      firstSuccessFrom o start fuel = some (start + k) := by
  intro fuel
  induction fuel with
  | zero => intro start k hk; omega
  | succ n ih =>
    intro start k hk hsucc hfail
    cases k with
    | zero =>
      simp only [Nat.add_zero] at hsucc ⊢
      rw [firstSuccessFrom, if_pos hsucc]
    | succ k' =>
      have h0 : o start = false := by simpa using hfail 0 (Nat.succ_pos k')
      rw [firstSuccessFrom, if_neg (by simp [h0])]
      have := ih (start + 1) k' (by omega)
        (by rwa [show start + 1 + k' = start + (k' + 1) by omega])
        (fun j hj => by
          have := hfail (j + 1) (by omega)
          rwa [show start + 1 + j = start + (j + 1) by omega])
      rwa [show start + 1 + k' = start + (k' + 1) by omega] at this

lemma firstSuccessFrom_bounds (o : Nat → Bool) :
    ∀ fuel start k, firstSuccessFrom o start fuel = some k → start ≤ k ∧ k < start + fuel := by
  intro fuel
  induction fuel with
  | zero => intro start k h; exact absurd h (by simp [firstSuccessFrom])
  | succ n ih =>
    intro start k h
    rw [firstSuccessFrom] at h
    by_cases hs : o start = true
    · rw [if_pos hs] at h
      obtain rfl : start = k := Option.some_injective _ h
      omega
    · rw [if_neg hs] at h
      have := ih (start + 1) k h
      omega

/-- **C7.** The bulk sender retries with exponential, capped, doubling
backoff up to the configured number of attempts: a first success at
attempt `k < N` records the batch as exported with `k` logged retries, `N`
transient failures record it as failed, the run continues over every
remaining batch, and the concrete busy-busy-success scenario with 3
attempts succeeds with 2 retries. -/
theorem claim_C7_retry_policy :
    (∀ (n : Nat) (o : Nat → Bool), (sendWithRetry n o).attempts ≤ n) ∧
    (∀ (n : Nat) (o : Nat → Bool) (k : Nat), k < n → o k = true →
      (∀ j, j < k → o j = false) → sendWithRetry n o = ⟨true, k + 1, k⟩) ∧
    (∀ (n : Nat) (o : Nat → Bool), (∀ j, j < n → o j = false) →
      (sendWithRetry n o).success = false) ∧
    (∀ (n : Nat) (jobs : List (String × (Nat → Bool))),
      (runExport n jobs).map Prod.fst = jobs.map Prod.fst) ∧
    (∀ base cap n : Nat,
      backoffDelay base cap (n + 1) = min cap (2 * backoffDelay base cap n) ∧
      backoffDelay base cap n ≤ cap) ∧
    sendWithRetry 3 (fun i => i == 2) = ⟨true, 3, 2⟩ := by
  refine ⟨?_, ?_, ?_, ?_, ?_, by decide⟩
  · intro n o
    rw [sendWithRetry]
    cases h : firstSuccessFrom o 0 n with
    | none => simp
    | some k =>
      have := firstSuccessFrom_bounds o n 0 k h
      simp only
      omega
  · intro n o k hk hsucc hfail
    have h := firstSuccessFrom_some o n 0 k hk (by simpa using hsucc) (by simpa using hfail)
    rw [sendWithRetry, h]
    simp
  · intro n o hfail
    have h := firstSuccessFrom_none o n 0 (by simpa using hfail)
    rw [sendWithRetry, h]
  · intro n jobs
    simp [runExport]
  · intro base cap n
    constructor
    · have hp : base * 2 ^ (n + 1) = 2 * (base * 2 ^ n) := by ring
      rw [backoffDelay, backoffDelay, hp]
      omega
    · rw [backoffDelay]
      omega

/-- Witness for C7: with three allowed attempts, two transient failures
followed by a success yield a successfully exported batch with two logged
retries. -/
theorem claim_C7_witness :
    sendWithRetry 3 (fun i => decide (2 ≤ i)) = ⟨true, 3, 2⟩ :=
  claim_C7_retry_policy.2.1 3 (fun i => decide (2 ≤ i)) 2 (by omega) (by decide)
    (fun j hj => by
      have : j = 0 ∨ j = 1 := by omega
      rcases this with rfl | rfl <;> decide)

lemma chunkGo_nil {α : Type} (bs fuel : Nat) : chunkGo bs fuel ([] : List α) = [] := by
  cases fuel <;> rfl

lemma chunkGo_replicate_step {α : Type} (bs fuel n : Nat) (x : α) (hbs : 0 < bs)
    (hn : bs < n) :
    chunkGo bs (fuel + 1) (List.replicate n x) =
      List.replicate bs x :: chunkGo bs fuel (List.replicate (n - bs) x) := by
  have h1 : List.replicate n x = x :: List.replicate (n - 1) x := by
    cases n with
    | zero => omega
    | succ m => rfl
  rw [h1, chunkGo, List.take_replicate, List.drop_replicate]
  have h2 : min (bs - 1) (n - 1) = bs - 1 := Nat.min_eq_left (by omega)
  have h3 : n - 1 - (bs - 1) = n - bs := by
    rw [Nat.sub_sub]
    congr 1
    omega
  rw [h2, h3]
  congr 1
  have h4 : bs = (bs - 1) + 1 := by omega
  rw [h4]
  rfl

lemma chunkGo_replicate_last {α : Type} (bs fuel n : Nat) (x : α) (h0 : 0 < n)
    (hn : n ≤ bs) :
    chunkGo bs (fuel + 1) (List.replicate n x) = [List.replicate n x] := by
  have h1 : List.replicate n x = x :: List.replicate (n - 1) x := by
    cases n with
    | zero => omega
    | succ m => rfl
  rw [h1, chunkGo, List.take_replicate, List.drop_replicate]
  have h2 : min (bs - 1) (n - 1) = n - 1 := Nat.min_eq_right (by omega)
  have h3 : n - 1 - (bs - 1) = 0 := by
    rw [Nat.sub_sub]
    omega
  rw [h2, h3]
  rw [show List.replicate 0 x = [] from rfl, chunkGo_nil]

lemma chunkGo_mem_length_le {α : Type} (bs : Nat) (hbs : 0 < bs) :
    ∀ (fuel : Nat) (l : List α) (b : List α), b ∈ chunkGo bs fuel l → b.length ≤ bs := by
  intro fuel
  induction fuel with
  | zero => intro l b h; cases l <;> simp [chunkGo] at h
  | succ n ih =>
    intro l b h
    cases l with
    | nil => simp [chunkGo] at h
    | cons x xs =>
      rw [chunkGo] at h
      rcases List.mem_cons.1 h with rfl | h
      · have : (xs.take (bs - 1)).length ≤ bs - 1 := by
          simp [Nat.min_le_left]
        simp only [List.length_cons]
        omega
      · exact ih _ b h

lemma chunkGo_full {α : Type} (bs : Nat) (hbs : 0 < bs) :
    ∀ (fuel : Nat) (l : List α), l.length ≤ fuel →
      ∀ i, i + 1 < (chunkGo bs fuel l).length →
        ((chunkGo bs fuel l).getD i []).length = bs := by
  intro fuel
  induction fuel with
  | zero => intro l hl i hi; cases l <;> simp [chunkGo] at hi
  | succ n ih =>
    intro l hl i hi
    cases l with
    | nil => simp [chunkGo] at hi
    | cons x xs =>
      rw [chunkGo] at hi ⊢
      cases i with
      | zero =>
        simp only [List.length_cons] at hi
        have hrest : chunkGo bs n (xs.drop (bs - 1)) ≠ [] := by
          intro hempty
          rw [hempty] at hi
          simp at hi
        have hdrop : xs.drop (bs - 1) ≠ [] := by
          intro hempty
          cases n <;> rw [hempty] at hrest <;> simp [chunkGo] at hrest
        have hlen : bs - 1 < xs.length := by
          by_contra hcon
          exact hdrop (List.drop_eq_nil_of_le (by omega))
        simp only [List.getD_cons_zero, List.length_cons, List.length_take]
        omega
      | succ j =>
        simp only [List.length_cons] at hi
        simp only [List.getD_cons_succ]
        refine ih (xs.drop (bs - 1)) ?_ j (by omega)
        have : (xs.drop (bs - 1)).length ≤ xs.length := by
          simp [List.length_drop]
        simp only [List.length_cons] at hl
        omega

/-- **C5.** Every batch produced by the writer's grouping has at most
`batch_size` records, every batch except possibly the last has exactly
`batch_size`, and 2500 records with `batch_size = 1000` persist as three
batches of sizes 1000, 1000, 500 in order. -/
theorem claim_C5_batch_sizes :
    (∀ (bs : Nat), 0 < bs → ∀ (l : List FlattenedVariantRecord) (b : List FlattenedVariantRecord),
      b ∈ chunkList bs l → b.length ≤ bs) ∧
    (∀ (bs : Nat), 0 < bs → ∀ (l : List FlattenedVariantRecord) (i : Nat),
      i + 1 < (chunkList bs l).length → ((chunkList bs l).getD i []).length = bs) ∧
    (chunkList 1000 (List.replicate 2500 (0 : Nat))).map List.length = [1000, 1000, 500] := by
  refine ⟨?_, ?_, ?_⟩
  · intro bs hbs l b hmem
    exact chunkGo_mem_length_le bs hbs l.length l b hmem
  · intro bs hbs l i hi
    exact chunkGo_full bs hbs l.length l le_rfl i hi
  · rw [chunkList, List.length_replicate]
    rw [show (2500 : Nat) = 2499 + 1 by norm_num,
      chunkGo_replicate_step 1000 2499 2500 0 (by norm_num) (by norm_num)]
    rw [show (2500 : Nat) - 1000 = 1500 by norm_num]
    rw [show (2499 : Nat) = 2498 + 1 by norm_num,
      chunkGo_replicate_step 1000 2498 1500 0 (by norm_num) (by norm_num)]
    rw [show (1500 : Nat) - 1000 = 500 by norm_num]
    rw [show (2498 : Nat) = 2497 + 1 by norm_num,
      chunkGo_replicate_last 1000 2497 500 0 (by norm_num) (by norm_num)]
    simp only [List.map_cons, List.map_nil, List.length_replicate]

/-- Witness for C5: with `batch_size = 2`, the first batch of a 3-record
run is full. -/
theorem claim_C5_witness :
    ((chunkList 2 [flattenRecord sampleUnit, flattenRecord sampleUnit,
        flattenRecord sampleUnit]).getD 0 []).length = 2 :=
  claim_C5_batch_sizes.2.1 2 (by omega)
    [flattenRecord sampleUnit, flattenRecord sampleUnit, flattenRecord sampleUnit] 0
    (by decide)

lemma passesFilter_af_false (f : Filters) (v : Variant) (h : afPass f v = false) :
    passesFilter f v = false := by
  have hc : (v.gnomad_af.getD 0 < f.minAF || v.gnomad_af.getD 0 > f.maxAF) = true := by
    cases hb : (v.gnomad_af.getD 0 < f.minAF || v.gnomad_af.getD 0 > f.maxAF) with
    | false =>
      exfalso
      simp only [afPass] at h
      rw [hb] at h
      simp at h
    | true => rfl
  simp only [passesFilter, hc]
  rfl

/-- **C8.** The `useSearch` frequency filter conflates a missing
`gnomad_af` with an observed frequency of zero: a variant with undefined
`gnomad_af` passes the frequency-range check exactly when
`minAF ≤ 0 ≤ maxAF`, the full filter only accepts variants passing that
check, and any strictly positive `minAF` therefore excludes every variant
with unmeasured frequency. -/
theorem claim_C8_undefined_af (f : Filters) (v : Variant) (h : v.gnomad_af = none) :
    (afPass f v = true ↔ (f.minAF ≤ 0 ∧ 0 ≤ f.maxAF)) ∧
    (passesFilter f v = true → afPass f v = true) ∧
    (0 < f.minAF → passesFilter f v = false) := by
  have haf : v.gnomad_af.getD 0 = 0 := by rw [h]; rfl
  refine ⟨?_, ?_, ?_⟩
  · rw [afPass]
    simp only [haf, Bool.not_eq_true', Bool.or_eq_false_iff, decide_eq_false_iff_not,
      not_lt, gt_iff_lt]
  · intro hp
    cases hq : afPass f v with
    | false => exact absurd hp (by simp [passesFilter_af_false f v hq])
    | true => rfl
  · intro hmin
    refine passesFilter_af_false f v ?_
    rw [afPass]
    simp [haf, hmin]

/-- Witness for C8: with `minAF = 0.1`, a variant with no measured
frequency is filtered out. -/
theorem claim_C8_witness :
    passesFilter ⟨1/10, 1, "", "", "", "", ""⟩
      ⟨"1-100-A-T", none, none, none, none, none, none, none⟩ = false :=
  (claim_C8_undefined_af ⟨1/10, 1, "", "", "", "", ""⟩
    ⟨"1-100-A-T", none, none, none, none, none, none, none⟩ rfl).2.2 (by norm_num)

lemma dedupFirstAux_mem (x : String) :
    ∀ (l seen : List String), x ∈ dedupFirstAux seen l ↔ x ∈ l ∧ x ∉ seen := by
  intro l
  induction l with
  | nil => intro seen; simp [dedupFirstAux]
  | cons y ys ih =>
    intro seen
    rw [dedupFirstAux]
    by_cases hy : y ∈ seen
    · rw [if_pos hy, ih]
      constructor
      · rintro ⟨hx, hs⟩
        exact ⟨List.mem_cons_of_mem y hx, hs⟩
      · rintro ⟨hx, hs⟩
        rcases List.mem_cons.1 hx with rfl | hx
        · exact absurd hy hs
        · exact ⟨hx, hs⟩
    · rw [if_neg hy]
      constructor
      · intro hx
        rcases List.mem_cons.1 hx with rfl | hx
        · exact ⟨List.mem_cons_self _ _, hy⟩
        · have h' := (ih (y :: seen)).1 hx
          exact ⟨List.mem_cons_of_mem _ h'.1,
            fun hs => h'.2 (List.mem_cons_of_mem _ hs)⟩
      · rintro ⟨hx, hs⟩
        rcases List.mem_cons.1 hx with rfl | hx
        · exact List.mem_cons_self _ _
        · by_cases hxy : x = y
          · subst hxy
            exact List.mem_cons_self _ _
          · refine List.mem_cons_of_mem _ ((ih (y :: seen)).2 ⟨hx, fun hmem => ?_⟩)
            rcases List.mem_cons.1 hmem with h' | h'
            · exact hxy h'
            · exact hs h'

lemma dedupFirstAux_nodup : ∀ (l seen : List String), (dedupFirstAux seen l).Nodup := by
  intro l
  induction l with
  | nil => intro seen; simp [dedupFirstAux]
  | cons y ys ih =>
    intro seen
    rw [dedupFirstAux]
    by_cases hy : y ∈ seen
    · rw [if_pos hy]
      exact ih seen
    · rw [if_neg hy]
      refine List.nodup_cons.2 ⟨fun hmem => ?_, ih (y :: seen)⟩
      exact ((dedupFirstAux_mem y ys (y :: seen)).1 hmem).2 (List.mem_cons_self _ _)

lemma dedupFirst_mem (x : String) (l : List String) : x ∈ dedupFirst l ↔ x ∈ l := by
  rw [dedupFirst, dedupFirstAux_mem]
  simp

lemma dedupFirst_nodup (l : List String) : (dedupFirst l).Nodup :=
  dedupFirstAux_nodup l []

instance : IsTotal String severityLE :=
  ⟨fun a b => Nat.le_total (severityRank a) (severityRank b)⟩

instance : IsTrans String severityLE :=
  ⟨fun _ _ _ hab hbc => Nat.le_trans hab hbc⟩

lemma sortBySeverity_mem (x : String) (l : List String) :
    x ∈ sortBySeverity l ↔ x ∈ l :=
  List.mem_insertionSort severityLE

lemma sortBySeverity_nodup (l : List String) (h : l.Nodup) : (sortBySeverity l).Nodup :=
  (List.perm_insertionSort severityLE l).nodup_iff.2 h

lemma sortBySeverity_sorted (l : List String) : (sortBySeverity l).Sorted severityLE :=
  List.sorted_insertionSort severityLE l

lemma pickMin_cons (t c : TranscriptBlock) (rs : List TranscriptBlock) :
    pickMin t (c :: rs) = pickMin (if blockRank c < blockRank t then c else t) rs := rfl

lemma pickMin_mem : ∀ (rest : List TranscriptBlock) (t : TranscriptBlock),
    pickMin t rest = t ∨ pickMin t rest ∈ rest := by
  intro rest
  induction rest with
  | nil => intro t; exact Or.inl rfl
  | cons c rs ih =>
    intro t
    rw [pickMin_cons]
    by_cases h : blockRank c < blockRank t
    · rw [if_pos h]
      rcases ih c with h' | h'
      · exact Or.inr (by rw [h']; exact List.mem_cons_self c rs)
      · exact Or.inr (List.mem_cons_of_mem c h')
    · rw [if_neg h]
      rcases ih t with h' | h'
      · exact Or.inl h'
      · exact Or.inr (List.mem_cons_of_mem c h')

lemma pickMin_le : ∀ (rest : List TranscriptBlock) (t : TranscriptBlock),
    blockRank (pickMin t rest) ≤ blockRank t ∧
      ∀ c ∈ rest, blockRank (pickMin t rest) ≤ blockRank c := by
  intro rest
  induction rest with
  | nil => intro t; exact ⟨le_rfl, by simp⟩
  | cons c rs ih =>
    intro t
    rw [pickMin_cons]
    by_cases h : blockRank c < blockRank t
    · rw [if_pos h]
      obtain ⟨h1, h2⟩ := ih c
      refine ⟨le_trans h1 (le_of_lt h), fun d hd => ?_⟩
      rcases List.mem_cons.1 hd with rfl | hd
      · exact h1
      · exact h2 d hd
    · rw [if_neg h]
      obtain ⟨h1, h2⟩ := ih t
      refine ⟨h1, fun d hd => ?_⟩
      rcases List.mem_cons.1 hd with rfl | hd
      · exact le_trans h1 (Nat.le_of_not_lt h)
      · exact h2 d hd

lemma pickMin_first : ∀ (rest : List TranscriptBlock) (t : TranscriptBlock),
    ∃ pre post, t :: rest = pre ++ pickMin t rest :: post ∧
      ∀ c ∈ pre, blockRank (pickMin t rest) < blockRank c := by
  intro rest
  induction rest with
  | nil => intro t; exact ⟨[], [], rfl, by simp⟩
  | cons c rs ih =>
    intro t
    rw [pickMin_cons]
    by_cases h : blockRank c < blockRank t
    · rw [if_pos h]
      obtain ⟨pre', post', hdec, hpre⟩ := ih c
      refine ⟨t :: pre', post', ?_, fun d hd => ?_⟩
      · rw [List.cons_append, ← hdec]
      · rcases List.mem_cons.1 hd with rfl | hd
        · exact lt_of_le_of_lt (pickMin_le rs c).1 h
        · exact hpre d hd
    · rw [if_neg h]
      obtain ⟨pre', post', hdec, hpre⟩ := ih t
      cases pre' with
      | nil =>
        rw [List.nil_append] at hdec
        injection hdec with h1 h2
        refine ⟨[], c :: rs, ?_, by simp⟩
        rw [List.nil_append, ← h1]
      | cons p pre'' =>
        rw [List.cons_append] at hdec
        injection hdec with h1 h2
        have hptlt : blockRank (pickMin t rs) < blockRank t := by
          have hp := hpre p (List.mem_cons_self p pre'')
          rwa [← h1] at hp
        refine ⟨t :: c :: pre'', post', ?_, fun d hd => ?_⟩
        · rw [List.cons_append, List.cons_append, ← h2]
        · rcases List.mem_cons.1 hd with rfl | hd
          · exact hptlt
          · rcases List.mem_cons.1 hd with rfl | hd
            · exact lt_of_lt_of_le hptlt (Nat.le_of_not_lt h)
            · exact hpre d (List.mem_cons_of_mem p hd)

lemma find_canonical : ∀ ts : List TranscriptBlock, (∃ c ∈ ts, c.isCanonical = true) →
    ∃ c, ts.find? (·.isCanonical) = some c ∧ c.isCanonical = true ∧
      ∃ pre post, ts = pre ++ c :: post ∧ ∀ x ∈ pre, x.isCanonical = false := by
  intro ts
  induction ts with
  | nil => intro h; simp at h
  | cons t rest ih =>
    intro h
    cases hcan : t.isCanonical with
    | true =>
      exact ⟨t, List.find?_cons_of_pos _ hcan, hcan, [], rest, rfl, by simp⟩
    | false =>
      have h' : ∃ c ∈ rest, c.isCanonical = true := by
        obtain ⟨c, hc, hcan'⟩ := h
        rcases List.mem_cons.1 hc with rfl | hc
        · rw [hcan] at hcan'
          exact absurd hcan' (by simp)
        · exact ⟨c, hc, hcan'⟩
      obtain ⟨c, hfind, hc, pre, post, hdec, hpre⟩ := ih h'
      refine ⟨c, ?_, hc, t :: pre, post, by rw [hdec, List.cons_append], fun x hx => ?_⟩
      · rw [List.find?_cons_of_neg _ (by simp [hcan]), hfind]
      · rcases List.mem_cons.1 hx with rfl | hx
        · exact hcan
        · exact hpre x hx

/-- The spec's §8 three-transcript scenario: gene A with an intron
variant, gene A with a missense variant, gene B with a synonymous
variant, and no canonical flag. -/
def scenarioUnit3 : RawAnnotationUnit :=
  ⟨"1", 100, "A", "G", none,
   [⟨"A", ["intron_variant"], "tx1", false⟩,
    ⟨"A", ["missense_variant"], "tx2", false⟩,
    ⟨"B", ["synonymous_variant"], "tx3", false⟩],
   [], none, [], none, none⟩

/-- **C1.** Canonical gene/transcript selection: the first canonical-
flagged block wins; with no flag, the block whose most severe consequence
ranks highest in the fixed severity table wins, first transcript on ties;
`all_consequences` is the deduplicated union of consequence terms over all
blocks sorted most severe first; and the spec's 3-transcript scenario
yields gene `A` with consequences
`[missense_variant, intron_variant, synonymous_variant]`. -/
theorem claim_C1_canonical_selection :
    (∀ u : RawAnnotationUnit,
      (flattenRecord u).gene = (selectTranscript u.transcripts).map TranscriptBlock.gene ∧
      (flattenRecord u).all_consequences = allConsequences u.transcripts) ∧
    (∀ ts : List TranscriptBlock, (∃ c ∈ ts, c.isCanonical = true) →
      ∃ c, selectTranscript ts = some c ∧ c.isCanonical = true ∧
        ∃ pre post, ts = pre ++ c :: post ∧ ∀ x ∈ pre, x.isCanonical = false) ∧
    (∀ (t : TranscriptBlock) (rest : List TranscriptBlock),
      (∀ x ∈ t :: rest, x.isCanonical = false) →
      selectTranscript (t :: rest) = some (pickMin t rest) ∧
      pickMin t rest ∈ t :: rest ∧
      (∀ c ∈ t :: rest, blockRank (pickMin t rest) ≤ blockRank c) ∧
      ∃ pre post, t :: rest = pre ++ pickMin t rest :: post ∧
        ∀ c ∈ pre, blockRank (pickMin t rest) < blockRank c) ∧
    (∀ ts : List TranscriptBlock,
      (allConsequences ts).Nodup ∧
      (∀ x, x ∈ allConsequences ts ↔ ∃ b ∈ ts, x ∈ b.consequences) ∧
      (allConsequences ts).Sorted severityLE) ∧
    ((flattenRecord scenarioUnit3).gene = some "A" ∧
      (flattenRecord scenarioUnit3).all_consequences =
        ["missense_variant", "intron_variant", "synonymous_variant"]) := by
  refine ⟨fun u => ⟨rfl, rfl⟩, ?_, ?_, ?_, by decide, by decide⟩
  · intro ts h
    obtain ⟨c, hfind, hc, pre, post, hdec, hpre⟩ := find_canonical ts h
    refine ⟨c, ?_, hc, pre, post, hdec, hpre⟩
    rw [selectTranscript.eq_def, hfind]
  · intro t rest h
    have hfind : (t :: rest).find? (·.isCanonical) = none :=
      List.find?_eq_none.2 (fun x hx => by simp [h x hx])
    refine ⟨by rw [selectTranscript.eq_def, hfind], ?_, ?_, pickMin_first rest t⟩
    · rcases pickMin_mem rest t with h' | h'
      · exact (by rw [h']; exact List.mem_cons_self t rest)
      · exact List.mem_cons_of_mem t h'
    · intro c hc
      rcases List.mem_cons.1 hc with rfl | hc
      · exact (pickMin_le rest c).1
      · exact (pickMin_le rest t).2 c hc
  · intro ts
    refine ⟨sortBySeverity_nodup _ (dedupFirst_nodup _), fun x => ?_,
      sortBySeverity_sorted _⟩
    rw [allConsequences, sortBySeverity_mem, dedupFirst_mem, List.mem_flatMap]

/-- Witness for C1: a singleton list with a canonical-flagged block
selects that block. -/
theorem claim_C1_witness :
    ∃ c, selectTranscript [⟨"X", ["missense_variant"], "tx", true⟩] = some c ∧
      c.isCanonical = true ∧
      ∃ pre post,
        [(⟨"X", ["missense_variant"], "tx", true⟩ : TranscriptBlock)] =
          pre ++ c :: post ∧
        ∀ x ∈ pre, x.isCanonical = false :=
  claim_C1_canonical_selection.2.1 _
    ⟨⟨"X", ["missense_variant"], "tx", true⟩, List.mem_singleton.2 rfl, rfl⟩

lemma stateKeys_upsert (s : IndexState) (k : String) (v : FlattenedVariantRecord) :
    stateKeys (upsert s k v) =
      if k ∈ stateKeys s then stateKeys s else stateKeys s ++ [k] := by
  by_cases hk : k ∈ stateKeys s
  · rw [upsert, if_pos hk, if_pos hk]
    simp only [stateKeys, List.map_map]
    refine List.map_congr_left fun p _ => ?_
    by_cases hpk : p.1 = k
    · simp [Function.comp, hpk]
    · simp [Function.comp, hpk]
  · rw [upsert, if_neg hk, if_neg hk]
    simp [stateKeys]

lemma mem_stateKeys_upsert_self (s : IndexState) (k : String) (v : FlattenedVariantRecord) :
    k ∈ stateKeys (upsert s k v) := by
  rw [stateKeys_upsert]
  by_cases hk : k ∈ stateKeys s
  · rw [if_pos hk]; exact hk
  · rw [if_neg hk]; simp

lemma mem_stateKeys_upsert_of_mem (s : IndexState) (k k' : String)
    (v' : FlattenedVariantRecord) (h : k ∈ stateKeys s) :
    k ∈ stateKeys (upsert s k' v') := by
  rw [stateKeys_upsert]
  by_cases hk : k' ∈ stateKeys s
  · rw [if_pos hk]; exact h
  · rw [if_neg hk]; exact List.mem_append_left _ h

lemma map_replace_of_not_mem (s : IndexState) (k : String) (v : FlattenedVariantRecord)
    (h : k ∉ stateKeys s) :
    s.map (fun p => if p.1 = k then (k, v) else p) = s := by
  conv_rhs => rw [← List.map_id s]
  refine List.map_congr_left fun p hp => ?_
  have hpk : p.1 ≠ k := fun he => h (he ▸ List.mem_map_of_mem (·.1) hp)
  simp [hpk]

lemma upsert_absorb (s : IndexState) (k : String) (v v' : FlattenedVariantRecord) :
    upsert (upsert s k v) k v' = upsert s k v' := by
  by_cases hk : k ∈ stateKeys s
  · have e1 : upsert s k v = s.map (fun p => if p.1 = k then (k, v) else p) := by
      rw [upsert, if_pos hk]
    have hk1 : k ∈ stateKeys (upsert s k v) := mem_stateKeys_upsert_self s k v
    rw [upsert, if_pos hk1, e1, List.map_map, upsert, if_pos hk]
    refine List.map_congr_left fun p _ => ?_
    by_cases hpk : p.1 = k
    · simp [Function.comp, hpk]
    · simp [Function.comp, hpk]
  · have e1 : upsert s k v = s ++ [(k, v)] := by
      rw [upsert, if_neg hk]
    have hk1 : k ∈ stateKeys (upsert s k v) := mem_stateKeys_upsert_self s k v
    rw [upsert, if_pos hk1, e1, List.map_append, map_replace_of_not_mem s k v' hk,
      upsert, if_neg hk]
    simp

lemma upsert_comm_of_mem (t : IndexState) (k k' : String)
    (v v' : FlattenedVariantRecord) (hne : k ≠ k') (hk : k ∈ stateKeys t) :
    upsert (upsert t k' v') k v = upsert (upsert t k v) k' v' := by
  have hkmem : k ∈ stateKeys (upsert t k' v') := mem_stateKeys_upsert_of_mem t k k' v' hk
  have ekv : upsert t k v = t.map (fun p => if p.1 = k then (k, v) else p) := by
    rw [upsert, if_pos hk]
  have hkeys : stateKeys (upsert t k v) = stateKeys t := by
    rw [stateKeys_upsert, if_pos hk]
  by_cases hk' : k' ∈ stateKeys t
  · have e1 : upsert t k' v' = t.map (fun p => if p.1 = k' then (k', v') else p) := by
      rw [upsert, if_pos hk']
    have hk'mem : k' ∈ stateKeys (t.map (fun p => if p.1 = k then (k, v) else p)) := by
      rw [← ekv, hkeys]
      exact hk'
    rw [upsert, if_pos hkmem, e1, List.map_map, ekv, upsert, if_pos hk'mem,
      List.map_map]
    refine List.map_congr_left fun p _ => ?_
    by_cases hpk : p.1 = k
    · have hp' : p.1 ≠ k' := by rw [hpk]; exact hne
      simp [Function.comp, hpk, hp', hne]
    · by_cases hpk' : p.1 = k'
      · simp [Function.comp, hpk, hpk', Ne.symm hne]
      · simp [Function.comp, hpk, hpk']
  · have e1 : upsert t k' v' = t ++ [(k', v')] := by
      rw [upsert, if_neg hk']
    have hk'nmem : k' ∉ stateKeys (t.map (fun p => if p.1 = k then (k, v) else p)) := by
      rw [← ekv, hkeys]
      exact hk'
    rw [upsert, if_pos hkmem, e1, List.map_append, ekv, upsert, if_neg hk'nmem]
    have hsing : ([(k', v')] : IndexState).map (fun p => if p.1 = k then (k, v) else p) =
        [(k', v')] := by
      simp [Ne.symm hne]
    rw [hsing]

lemma exportBatch_cons (s : IndexState) (r : FlattenedVariantRecord)
    (b : List FlattenedVariantRecord) :
    exportBatch s (r :: b) = exportBatch (upsert s r.vid r) b := rfl

lemma upsert_exportBatch_comm :
    ∀ (b : List FlattenedVariantRecord) (t : IndexState) (k : String)
      (v : FlattenedVariantRecord), k ∈ stateKeys t → (∀ r ∈ b, r.vid ≠ k) →
      upsert (exportBatch t b) k v = exportBatch (upsert t k v) b := by
  intro b
  induction b with
  | nil => intros; rfl
  | cons r rs ih =>
    intro t k v hk hb
    rw [exportBatch_cons, exportBatch_cons,
      ih (upsert t r.vid r) k v (mem_stateKeys_upsert_of_mem t k r.vid r hk)
        (fun r' hr' => hb r' (List.mem_cons_of_mem _ hr'))]
    congr 1
    exact upsert_comm_of_mem t k r.vid v r (Ne.symm (hb r (List.mem_cons_self r rs))) hk

lemma exportBatch_idem :
    ∀ (b : List FlattenedVariantRecord) (s : IndexState), (b.map (·.vid)).Nodup →
      exportBatch (exportBatch s b) b = exportBatch s b := by
  intro b
  induction b with
  | nil => intros; rfl
  | cons r rs ih =>
    intro s h
    rw [List.map_cons, List.nodup_cons] at h
    obtain ⟨hr, hrs⟩ := h
    have hvid : ∀ r' ∈ rs, r'.vid ≠ r.vid :=
      fun r' hr' he => hr (he ▸ List.mem_map_of_mem (·.vid) hr')
    rw [show exportBatch s (r :: rs) = exportBatch (upsert s r.vid r) rs from rfl]
    calc exportBatch (exportBatch (upsert s r.vid r) rs) (r :: rs)
        = exportBatch (upsert (exportBatch (upsert s r.vid r) rs) r.vid r) rs := rfl
      _ = exportBatch (exportBatch (upsert (upsert s r.vid r) r.vid r) rs) rs := by
          rw [upsert_exportBatch_comm rs (upsert s r.vid r) r.vid r
            (mem_stateKeys_upsert_self s r.vid r) hvid]
      _ = exportBatch (exportBatch (upsert s r.vid r) rs) rs := by rw [upsert_absorb]
      _ = exportBatch (upsert s r.vid r) rs := ih (upsert s r.vid r) hrs

lemma exportTable_eq_flatten :
    ∀ (bs : List (List FlattenedVariantRecord)) (s : IndexState),
      exportTable s bs = exportBatch s bs.flatten := by
  intro bs
  induction bs with
  | nil => intro s; rfl
  | cons b rest ih =>
    intro s
    rw [List.flatten_cons]
    rw [show exportBatch s (b ++ rest.flatten) =
        exportBatch (exportBatch s b) rest.flatten from List.foldl_append _ _ _ _]
    rw [show exportTable s (b :: rest) = exportTable (exportBatch s b) rest from rfl]
    exact ih (exportBatch s b)

/-- **C6.** Bulk export is idempotent on the index state: since documents
are upserted keyed by `vid` (unique per input by the data-model
invariant), exporting a batch twice gives the same index state and
document count as exporting it once, and re-running the exporter over a
fully exported table leaves the document count unchanged. -/
theorem claim_C6_idempotent_upsert :
    (∀ (s : IndexState) (b : List FlattenedVariantRecord), (b.map (·.vid)).Nodup →
      exportBatch (exportBatch s b) b = exportBatch s b ∧
      docCount (exportBatch (exportBatch s b) b) = docCount (exportBatch s b)) ∧
    (∀ (s : IndexState) (bs : List (List FlattenedVariantRecord)),
      (bs.flatten.map (·.vid)).Nodup →
      exportTable (exportTable s bs) bs = exportTable s bs ∧
      docCount (exportTable (exportTable s bs) bs) = docCount (exportTable s bs)) := by
  constructor
  · intro s b h
    have he := exportBatch_idem b s h
    exact ⟨he, by rw [he]⟩
  · intro s bs h
    have he : exportTable (exportTable s bs) bs = exportTable s bs := by
      rw [exportTable_eq_flatten, exportTable_eq_flatten]
      exact exportBatch_idem bs.flatten s h
    exact ⟨he, by rw [he]⟩

/-- Witness for C6: re-exporting a one-record batch into an empty index
changes nothing. -/
theorem claim_C6_witness :
    exportBatch (exportBatch [] [flattenRecord sampleUnit]) [flattenRecord sampleUnit] =
      exportBatch [] [flattenRecord sampleUnit] ∧
    docCount
        (exportBatch (exportBatch [] [flattenRecord sampleUnit])
          [flattenRecord sampleUnit]) =
      docCount (exportBatch [] [flattenRecord sampleUnit]) :=
  claim_C6_idempotent_upsert.1 [] [flattenRecord sampleUnit] (by simp)

lemma countFieldsAux_escape (l : List Char) :
    ∀ rest : List Char, countFieldsAux (csvEscape l ++ rest) true = countFieldsAux rest true := by
  induction l with
  | nil => intro rest; rfl
  | cons c cs ih =>
    intro rest
    rw [csvEscape]
    by_cases hc : c = '"'
    · rw [if_pos hc]
      simp only [List.cons_append]
      rw [show countFieldsAux ('"' :: '"' :: (csvEscape cs ++ rest)) true =
          countFieldsAux (csvEscape cs ++ rest) true from by simp [countFieldsAux]]
      exact ih rest
    · rw [if_neg hc]
      simp only [List.cons_append]
      by_cases hcm : c = ','
      · rw [show countFieldsAux (c :: (csvEscape cs ++ rest)) true =
            countFieldsAux (csvEscape cs ++ rest) true from by
              simp [countFieldsAux, hc, hcm]]
        exact ih rest
      · rw [show countFieldsAux (c :: (csvEscape cs ++ rest)) true =
            countFieldsAux (csvEscape cs ++ rest) true from by
              simp [countFieldsAux, hc, hcm]]
        exact ih rest

lemma countFieldsAux_quote (m rest : List Char) :
    countFieldsAux (csvQuote m ++ rest) false = countFieldsAux rest false := by
  rw [csvQuote]
  simp only [List.cons_append, List.append_assoc, List.singleton_append, List.nil_append]
  rw [show countFieldsAux ('"' :: (csvEscape m ++ ('"' :: rest))) false =
      countFieldsAux (csvEscape m ++ ('"' :: rest)) true from by simp [countFieldsAux]]
  rw [countFieldsAux_escape]
  simp [countFieldsAux]

lemma countFieldsAux_csvField (row : JSRow) (k : String) (rest : List Char) :
    countFieldsAux (csvField row k ++ rest) false = countFieldsAux rest false := by
  cases h : jsLookup row k with
  | vnull => simp [csvField, h]
  | vundefined => simp [csvField, h]
  | vbool b =>
    rw [show csvField row k = csvQuote (cond b "true" "false").data from by
      simp [csvField, h]]
    exact countFieldsAux_quote _ _
  | vnum s =>
    rw [show csvField row k = csvQuote s.data from by simp [csvField, h]]
    exact countFieldsAux_quote _ _
  | vstr s =>
    rw [show csvField row k = csvQuote s.data from by simp [csvField, h]]
    exact countFieldsAux_quote _ _
  | varr xs =>
    rw [show csvField row k = csvQuote (jsonStringify (.varr xs)).data from by
      simp [csvField, h]]
    exact countFieldsAux_quote _ _
  | vobj fs =>
    rw [show csvField row k = csvQuote (jsonStringify (.vobj fs)).data from by
      simp [csvField, h]]
    exact countFieldsAux_quote _ _

lemma countFieldsAux_plain (l : List Char) (hcm : ',' ∉ l) (hq : '"' ∉ l) :
    ∀ rest : List Char, countFieldsAux (l ++ rest) false = countFieldsAux rest false := by
  induction l with
  | nil => intro rest; rfl
  | cons c cs ih =>
    intro rest
    have hc : c ≠ '"' := fun he => hq (he ▸ List.mem_cons_self c cs)
    have hc2 : c ≠ ',' := fun he => hcm (he ▸ List.mem_cons_self c cs)
    simp only [List.cons_append]
    rw [show countFieldsAux (c :: (cs ++ rest)) false =
        countFieldsAux (cs ++ rest) false from by simp [countFieldsAux, hc, hc2]]
    exact ih (fun hm => hcm (List.mem_cons_of_mem c hm))
      (fun hm => hq (List.mem_cons_of_mem c hm)) rest

lemma joinSep_fields_count :
    ∀ fields : List (List Char),
      (∀ f ∈ fields, ∀ rest, countFieldsAux (f ++ rest) false = countFieldsAux rest false) →
      fields ≠ [] → countFields (joinSep ',' fields) = fields.length := by
  intro fields
  induction fields with
  | nil => intro _ h; exact absurd rfl h
  | cons f fs ih =>
    intro hsafe _
    cases fs with
    | nil =>
      rw [show joinSep ',' [f] = f from rfl, countFields]
      have h := hsafe f (List.mem_cons_self f []) []
      rw [List.append_nil] at h
      rw [h]
      simp [countFieldsAux]
    | cons f2 fs2 =>
      rw [show joinSep ',' (f :: f2 :: fs2) = f ++ ',' :: joinSep ',' (f2 :: fs2) from rfl,
        countFields, hsafe f (List.mem_cons_self f (f2 :: fs2))]
      rw [show countFieldsAux (',' :: joinSep ',' (f2 :: fs2)) false =
          countFieldsAux (joinSep ',' (f2 :: fs2)) false + 1 from by simp [countFieldsAux]]
      have h := ih (fun g hg => hsafe g (List.mem_cons_of_mem _ hg)) (by simp)
      rw [countFields] at h
      rw [List.length_cons]
      omega

/-- **C10.** The CSV built by `handleDownload` has a header holding the
union of all record keys, each once; each data row renders one field per
header key, with missing/null/undefined values as empty unquoted fields
and every present value as a double-quoted field with embedded quotes
doubled (objects JSON-stringified first); consequently, when the header
keys are free of commas and quotes, every data row parses (quote-aware)
into exactly as many comma-separated fields as the header. -/
theorem claim_C10_csv_shape :
    ∀ rows : List JSRow, rows ≠ [] →
      ((csvHeaderKeys rows).Nodup ∧
        (∀ x, x ∈ csvHeaderKeys rows ↔ ∃ row ∈ rows, x ∈ jsKeys row)) ∧
      (∀ row : JSRow,
        ((csvHeaderKeys rows).map (csvField row)).length = (csvHeaderKeys rows).length) ∧
      (∀ (row : JSRow) (k : String), jsLookup row k = JSVal.vnull → csvField row k = []) ∧
      (∀ (row : JSRow) (k : String), jsLookup row k = JSVal.vundefined → csvField row k = []) ∧
      (∀ (row : JSRow) (k : String), jsLookup row k ≠ JSVal.vnull →
        (jsLookup row k).isUndef = false → ∃ m, csvField row k = csvQuote m) ∧
      (csvHeaderKeys rows ≠ [] →
        (∀ k ∈ csvHeaderKeys rows, ',' ∉ k.data ∧ '"' ∉ k.data) →
        (∀ row ∈ rows, countFields (csvRowChars (csvHeaderKeys rows) row) =
          (csvHeaderKeys rows).length) ∧
        countFields (joinSep ',' ((csvHeaderKeys rows).map String.data)) =
          (csvHeaderKeys rows).length) := by
  intro rows _
  refine ⟨⟨dedupFirst_nodup _, fun x => ?_⟩, fun row => List.length_map _ _, ?_, ?_, ?_, ?_⟩
  · rw [csvHeaderKeys, dedupFirst_mem, List.mem_flatMap]
  · intro row k h
    simp [csvField, h]
  · intro row k h
    simp [csvField, h]
  · intro row k hnull hundef
    cases h : jsLookup row k with
    | vnull => exact absurd h hnull
    | vundefined =>
      rw [h] at hundef
      simp [JSVal.isUndef] at hundef
    | vbool b => exact ⟨(cond b "true" "false").data, by simp [csvField, h]⟩
    | vnum s => exact ⟨s.data, by simp [csvField, h]⟩
    | vstr s => exact ⟨s.data, by simp [csvField, h]⟩
    | varr xs => exact ⟨(jsonStringify (.varr xs)).data, by simp [csvField, h]⟩
    | vobj fs => exact ⟨(jsonStringify (.vobj fs)).data, by simp [csvField, h]⟩
  · intro hne hplain
    constructor
    · intro row _
      rw [csvRowChars]
      rw [joinSep_fields_count ((csvHeaderKeys rows).map (csvField row)) ?_ ?_]
      · exact List.length_map _ _
      · intro f hf rest
        obtain ⟨k, _, rfl⟩ := List.mem_map.1 hf
        exact countFieldsAux_csvField row k rest
      · simp [hne]
    · rw [joinSep_fields_count ((csvHeaderKeys rows).map String.data) ?_ ?_]
      · exact List.length_map _ _
      · intro f hf rest
        obtain ⟨k, hk, rfl⟩ := List.mem_map.1 hf
        exact countFieldsAux_plain k.data (hplain k hk).1 (hplain k hk).2 rest
      · simp [hne]

/-- Witness for C10: for two one-key records the first data row has as
many (quote-aware) comma-separated fields as the two-key header. -/
theorem claim_C10_witness :
    countFields
        (csvRowChars (csvHeaderKeys [[("a", JSVal.vstr "x")], [("b", JSVal.vnull)]])
          [("a", JSVal.vstr "x")]) =
      (csvHeaderKeys [[("a", JSVal.vstr "x")], [("b", JSVal.vnull)]]).length :=
  ((claim_C10_csv_shape [[("a", JSVal.vstr "x")], [("b", JSVal.vnull)]]
        (by simp)).2.2.2.2.2 (by decide) (by decide)).1
    [("a", JSVal.vstr "x")] (List.mem_cons_self _ _)

end FiocruzPortal
